import Mathlib

set_option maxHeartbeats 4000000
set_option maxRecDepth 100000

/-!
Shallow embedding of the `backedup` retention planner (src/lib.rs):
filename timestamp extraction (wildcard name filter, default timestamp
regex), slot configuration, plan construction (`Plan::from`) and plan
execution (`Plan::execute`).  `BTreeSet` and `BTreeMap` values are
modelled as sorted (association) lists with the same insertion
semantics; machine integers (`usize`, `u16`, `u8`) are modelled as `Nat`
with the parse bounds made explicit where the code can overflow.
-/

/-- A file name as handed to the program by the OS: either valid UTF-8 or
not decodable (`OsStr::to_str` returns `None`).  Paths are modelled by
their file names, which is all the planner inspects. -/
inductive OsName where
  | utf8 (s : String)
  | invalid
deriving DecidableEq, Repr

/-- Models `path.file_name()?.to_str()?` for a path that is a bare file name. -/
def OsName.toStr : OsName → Option String
  | .utf8 s => some s
  | .invalid => none

/-- Fuel-indexed wildcard matcher: `*` matches any character sequence,
`?` matches exactly one character, everything else matches itself
(semantics of the `wildmatch` crate used for the name filter). -/
def wmatchFuel : Nat → List Char → List Char → Bool
  | 0, _, _ => false
  | _ + 1, [], [] => true
  | f + 1, '*' :: ps, [] => wmatchFuel f ps []
  | _ + 1, _ :: _, [] => false
  | _ + 1, [], _ :: _ => false
  | f + 1, '*' :: ps, c :: cs => wmatchFuel f ps (c :: cs) || wmatchFuel f ('*' :: ps) cs
  | f + 1, '?' :: ps, _ :: cs => wmatchFuel f ps cs
  | f + 1, p :: ps, c :: cs => p == c && wmatchFuel f ps cs

/-- `WildMatch::matches`: every recursive step of `wmatchFuel` shrinks
`pattern.length + text.length`, so this fuel is always sufficient. -/
def wmatch (p s : List Char) : Bool := wmatchFuel (p.length + s.length + 1) p s

/-- One decimal digit as accepted by `\d` in the default grammar.  The
Rust regex class is the full Unicode `Nd` category; it is modelled here
by the ASCII digits together with the Arabic-Indic digits U+0660-U+0669.
The development only ever distinguishes ASCII digits (which integer
parsing accepts) from other decimal digits, so no further ranges are
needed. -/
def isRDigit (c : Char) : Bool := c.isDigit || (0x660 ≤ c.toNat && c.toNat ≤ 0x669)

/-- `\d{n}`: exactly `n` digit characters, returning the captured digits
and the rest of the input. -/
def takeDigits : Nat → List Char → Option (List Char × List Char)
  | 0, cs => some ([], cs)
  | _ + 1, [] => none
  | n + 1, c :: cs =>
    if isRDigit c then
      match takeDigits n cs with
      | some (ds, rest) => some (c :: ds, rest)
      | none => none
    else none

/-- `\D?`: greedily skip one non-digit character if present.  Since `\D`
and `\d` are disjoint and every `\D?` in the grammar is followed by a
digit group (or by the end of an optional block), declining the greedy
choice can never turn a failed continuation into a successful one, so
the greedy behaviour is a function. -/
def skipSep : List Char → List Char
  | [] => []
  | c :: cs => if isRDigit c then c :: cs else cs

/-- The named capture groups of one regex match.  Groups that did not
participate in the match are `none`. -/
structure Caps where
  year : Option (List Char)
  month : Option (List Char)
  day : Option (List Char)
  hour : Option (List Char)
  minute : Option (List Char)
  second : Option (List Char)
deriving DecidableEq, Repr

/-- Matching the default grammar
`(?P<year>\d{4})\D?(?P<month>\d{2})\D?(?P<day>\d{2})\D?((?P<hour>\d{2})\D?(?P<minute>\d{2})\D?(?P<second>\d{2})?)?`
at one fixed start position.  The trailing block is optional and greedy:
if `hour` or `minute` fails inside it, the block matches empty and its
captures do not participate. -/
def matchAtPos (cs : List Char) : Option Caps :=
  match takeDigits 4 cs with
  | none => none
  | some (y, cs) =>
    match takeDigits 2 (skipSep cs) with
    | none => none
    | some (mo, cs) =>
      match takeDigits 2 (skipSep cs) with
      | none => none
      | some (d, cs) =>
        match takeDigits 2 (skipSep cs) with
        | none => some ⟨some y, some mo, some d, none, none, none⟩
        | some (h, cs) =>
          match takeDigits 2 (skipSep cs) with
          | none => some ⟨some y, some mo, some d, none, none, none⟩
          | some (mi, cs) =>
            match takeDigits 2 (skipSep cs) with
            | none => some ⟨some y, some mo, some d, some h, some mi, none⟩
            | some (s, _) => some ⟨some y, some mo, some d, some h, some mi, some s⟩

/-- `Regex::captures` of the default grammar: unanchored leftmost match,
trying each start position from the left. -/
def findCaps : List Char → Option Caps
  | [] => none
  | c :: cs =>
    match matchAtPos (c :: cs) with
    | some m => some m
    | none => findCaps cs

/-- A compiled regex, abstracted by its capture-group names (in index
order, as produced by `capture_names`) and its match function. -/
structure Re where
  names : List String
  exec : List Char → Option Caps

/-- The lazily-initialised default grammar `RE` of src/lib.rs. -/
def defaultRe : Re :=
  ⟨["year", "month", "day", "hour", "minute", "second"], findCaps⟩

def digitsToNat (ds : List Char) : Nat :=
  ds.foldl (fun a c => a * 10 + (c.toNat - 48)) 0

/-- Rust `str::parse` for an unsigned integer type with maximum value
`bound`, applied to a captured group: it accepts a non-empty string of
ASCII digits whose value fits, and fails otherwise (in particular on
non-ASCII Unicode digits, which `\d` accepts but `parse` rejects). -/
def parseUNat (bound : Nat) (s : List Char) : Option Nat :=
  if !s.isEmpty && s.all Char.isDigit then
    if digitsToNat s ≤ bound then some (digitsToNat s) else none
  else none

/-- `BackupEntry` of src/lib.rs; `u16`/`u8` fields as `Nat` (extraction
bounds them by the parse bounds below). -/
structure BackupEntry where
  year : Nat
  month : Nat
  day : Nat
  hour : Nat
  minute : Nat
  path : OsName
deriving DecidableEq, Repr

/-- `BackupEntry::new`: apply the name filter (empty filter matches
everything), search the grammar, parse the required groups as `u16`/`u8`,
default the optional groups to 0 when missing or unparseable. -/
def BackupEntry.new (path : OsName) (pats : List String) (re : Re) : Option BackupEntry :=
  match path.toStr with
  | none => none
  | some filename =>
    if !pats.isEmpty && !(pats.any fun w => wmatch w.data filename.data) then none
    else
      match re.exec filename.data with
      | none => none
      | some m =>
        match m.year.bind (parseUNat 65535), m.month.bind (parseUNat 255),
              m.day.bind (parseUNat 255) with
        | some y, some mo, some d =>
          some ⟨y, mo, d, (m.hour.bind (parseUNat 255)).getD 0,
                (m.minute.bind (parseUNat 255)).getD 0, path⟩
        | _, _, _ => none

/-- `get_ordering_tuple`, as a list so that tier truncation keys are its
prefixes. -/
def BackupEntry.key (e : BackupEntry) : List Nat :=
  [e.year, e.month, e.day, e.hour, e.minute]

/-- Lexicographic comparison of key lists (the tuple comparison of
`impl Ord for BackupEntry`). -/
def lexCmp : List Nat → List Nat → Ordering
  | [], [] => .eq
  | [], _ :: _ => .lt
  | _ :: _, [] => .gt
  | a :: as, b :: bs => if a < b then .lt else if b < a then .gt else lexCmp as bs

/-- `impl Ord for BackupEntry`: compares only the timestamp tuple, not
the path. -/
def ecmp (a b : BackupEntry) : Ordering := lexCmp a.key b.key

/-- The `Period` enum. -/
inductive Period where
  | years | months | days | hours | minutes
deriving DecidableEq, Repr

/-- The truncation key a tier buckets by. -/
def tierKey : Period → BackupEntry → List Nat
  | .years, e => [e.year]
  | .months, e => [e.year, e.month]
  | .days, e => [e.year, e.month, e.day]
  | .hours, e => [e.year, e.month, e.day, e.hour]
  | .minutes, e => [e.year, e.month, e.day, e.hour, e.minute]

structure SlotConfig where
  yearly : Nat
  monthly : Nat
  daily : Nat
  hourly : Nat
  minutely : Nat
deriving DecidableEq, Repr

/-- `BackedUpError`; io payloads are not modelled. -/
inductive BackedUpError where
  | readDirError (path : OsName)
  | pathPermissionError (path : OsName)
  | noSlot
  | invalidRegex
  | missingCaptureGroup (name : String)
deriving DecidableEq, Repr

/-- The `usize` word size of the reference 64-bit target. -/
def usizeSize : Nat := 2 ^ 64

/-- `SlotConfig::new`.  The five counts are `usize` values (below
`usizeSize`); the guard `years + months + days + hours + minutes == 0`
is `usize` addition, which wraps modulo 2^64 in a release build, so the
wrapped sum is compared with zero.  (A debug build would panic on the
overflow instead of wrapping; the release semantics is modelled.) -/
def SlotConfig.new (years months days hours minutes : Nat) :
    Except BackedUpError SlotConfig :=
  if (years + months + days + hours + minutes) % usizeSize = 0 then .error .noSlot
  else .ok ⟨years, months, days, hours, minutes⟩

structure Config where
  slots : SlotConfig
  pattern : List String
  re : Re

/-- The required named groups, in the fixed order the code checks them. -/
def requiredGroups : List String := ["year", "month", "day"]

/-- `Config::new` on an already-compiled grammar (`InvalidRegex` arises
earlier, at compilation): `None` selects the default grammar, then the
first required group missing from the capture names is reported. -/
def Config.new (slots : SlotConfig) (pattern : List String) (reOpt : Option Re) :
    Except BackedUpError Config :=
  let re := match reOpt with | none => defaultRe | some r => r
  match requiredGroups.find? (fun n => !(re.names.contains n)) with
  | some n => .error (.missingCaptureGroup n)
  | none => .ok ⟨slots, pattern, re⟩

/-- `BTreeSet<BackupEntry>` insertion: ordered by `ecmp`; inserting an
element equal (under `ecmp`) to a present one leaves the set unchanged. -/
def setInsert (e : BackupEntry) : List BackupEntry → List BackupEntry
  | [] => [e]
  | x :: xs =>
    match ecmp e x with
    | .lt => e :: x :: xs
    | .eq => x :: xs
    | .gt => x :: setInsert e xs

def insertAll (l s : List BackupEntry) : List BackupEntry :=
  l.foldl (fun s e => setInsert e s) s

/-- `entries.into_iter().filter_map(..).collect::<BTreeSet<_>>()`. -/
def entrySet (l : List BackupEntry) : List BackupEntry := insertAll l []

/-- `BTreeMap<K, &BackupEntry>` insertion: ordered by key; inserting at a
present key replaces the stored value. -/
def mapInsert (k : List Nat) (e : BackupEntry) :
    List (List Nat × BackupEntry) → List (List Nat × BackupEntry)
  | [] => [(k, e)]
  | (k₁, x) :: xs =>
    match lexCmp k k₁ with
    | .lt => (k, e) :: (k₁, x) :: xs
    | .eq => (k, e) :: xs
    | .gt => (k₁, x) :: mapInsert k e xs

/-- The per-tier slot map of `Plan::from`: `for entry in entries.iter().rev()`
inserting each entry at its truncation key (later inserts replace). -/
def tierMap (t : Period) (es : List BackupEntry) : List (List Nat × BackupEntry) :=
  es.reverse.foldl (fun m e => mapInsert (tierKey t e) e m) []

def slotsOf (c : SlotConfig) : Period → Nat
  | .years => c.yearly
  | .months => c.monthly
  | .days => c.daily
  | .hours => c.hourly
  | .minutes => c.minutely

/-- `slot_map.into_iter().rev().take(n)`, keeping the stored entries. -/
def tierSel (t : Period) (n : Nat) (es : List BackupEntry) : List BackupEntry :=
  (((tierMap t es).reverse).take n).map (fun p => p.2)

def selOf (c : SlotConfig) (es : List BackupEntry) (t : Period) : List BackupEntry :=
  tierSel t (slotsOf c t) es

def allPeriods : List Period := [.years, .months, .days, .hours, .minutes]

/-- The `to_keep` set: the five per-tier selection loops, in source
order, inserting into one `BTreeSet`. -/
def keepSet (c : SlotConfig) (es : List BackupEntry) : List BackupEntry :=
  insertAll ((allPeriods.map (selOf c es)).flatten) []

/-- One selection loop's effect on `period_map`:
`period_map.entry(path).or_default().push(t)`. -/
def tagAll (t : Period) (l : List BackupEntry) (f : OsName → List Period) :
    OsName → List Period :=
  l.foldl (fun f e => fun q => if q = e.path then f q ++ [t] else f q) f

/-- `period_map` (a `HashMap<PathBuf, Vec<Period>>`, modelled as a total
function defaulting to the empty list). -/
def periodMapF (c : SlotConfig) (es : List BackupEntry) : OsName → List Period :=
  allPeriods.foldl (fun f t => tagAll t (selOf c es t) f) (fun _ => [])

/-- `entries.difference(&to_keep)`: ascending iteration over `entries`
dropping the elements `ecmp`-equal to a kept one. -/
def toRemoveSet (es keep : List BackupEntry) : List BackupEntry :=
  es.filter (fun e => !(keep.any fun k => ecmp e k == Ordering.eq))

structure Plan where
  toKeep : List OsName
  toRemove : List OsName
  periodMap : OsName → List Period
  path : Option OsName

def validEntries (c : Config) (names : List OsName) : List BackupEntry :=
  names.filterMap (fun n => BackupEntry.new n c.pattern c.re)

def entriesOf (c : Config) (names : List OsName) : List BackupEntry :=
  entrySet (validEntries c names)

/-- `Plan::from`. -/
def planFrom (c : Config) (names : List OsName) : Plan :=
  { toKeep := (keepSet c.slots (entriesOf c names)).map (fun e => e.path)
    toRemove :=
      (toRemoveSet (entriesOf c names) (keepSet c.slots (entriesOf c names))).map
        (fun e => e.path)
    periodMap := periodMapF c.slots (entriesOf c names)
    path := none }

/-- The filesystem as seen by `Plan::execute`: `metadataReadonly` is
`path.metadata().map(|m| m.permissions().readonly())` (`none` = io
error), `removeFile` tells whether `remove_file` succeeds on a path. -/
structure Fs where
  metadataReadonly : OsName → Option Bool
  removeFile : OsName → Bool

/-- `Plan::execute`: the writability precondition is checked once (only
when a directory path is recorded on the plan), then every path in
`to_remove` is attempted; per-path outcomes are returned as the log. -/
def Plan.execute (fs : Fs) (plan : Plan) : Except BackedUpError (List (OsName × Bool)) :=
  match plan.path with
  | some p =>
    match fs.metadataReadonly p with
    | none => .error (.readDirError p)
    | some true => .error (.pathPermissionError p)
    | some false => .ok (plan.toRemove.map fun q => (q, fs.removeFile q))
  | none => .ok (plan.toRemove.map fun q => (q, fs.removeFile q))

/-! ### The test fixture of `test_make_plan` -/

def isLeap (y : Nat) : Bool := y % 4 = 0 && (y % 100 ≠ 0 || y % 400 = 0)

def daysInMonth (y m : Nat) : Nat :=
  if m = 2 then (if isLeap y then 29 else 28)
  else if m = 4 ∨ m = 6 ∨ m = 9 ∨ m = 11 then 30 else 31

def prevDay : Nat × Nat × Nat → Nat × Nat × Nat
  | (y, m, d) =>
    if d > 1 then (y, m, d - 1)
    else if m > 1 then (y, m - 1, daysInMonth y (m - 1))
    else (y - 1, 12, 31)

def datesBack : Nat × Nat × Nat → Nat → List (Nat × Nat × Nat)
  | _, 0 => []
  | ymd, n + 1 => ymd :: datesBack (prevDay ymd) n

def pad2 (n : Nat) : String := if n < 10 then "0" ++ toString n else toString n

def fmtDate : Nat × Nat × Nat → String
  | (y, m, d) => toString y ++ "-" ++ pad2 m ++ "-" ++ pad2 d

/-- 400 daily `%Y-%m-%d` names going backward one day from 2015-01-01. -/
def fixture400 : List OsName :=
  (datesBack (2015, 1, 1) 400).map (fun x => .utf8 (fmtDate x))

/-- The 30 extra `.log`-suffixed names of the fixture. -/
def fixtureLog30 : List OsName :=
  (datesBack (2015, 1, 1) 30).map (fun x => .utf8 (fmtDate x ++ ".log"))


/-- The strict ordering invariant of the sorted-list model of `BTreeSet`. -/
def SortedE (l : List BackupEntry) : Prop := l.Pairwise (fun a b => ecmp a b = .lt)

/-- The strict key-ordering invariant of the association-list model of
`BTreeMap`. -/
def KSorted (m : List (List Nat × BackupEntry)) : Prop :=
  m.Pairwise (fun a b => lexCmp a.1 b.1 = .lt)

/-- The slot-map fold of `Plan::from`, over an arbitrary entry sequence. -/
def mapFold (t : Period) (ds : List BackupEntry) (m : List (List Nat × BackupEntry)) :
    List (List Nat × BackupEntry) :=
  ds.foldl (fun m e => mapInsert (tierKey t e) e m) m

/-- Increase a single tier's slot count by `d`, leaving the others
unchanged. -/
def bumpSlot (c : SlotConfig) (t : Period) (d : Nat) : SlotConfig :=
  match t with
  | .years => { c with yearly := c.yearly + d }
  | .months => { c with monthly := c.monthly + d }
  | .days => { c with daily := c.daily + d }
  | .hours => { c with hourly := c.hourly + d }
  | .minutes => { c with minutely := c.minutely + d }

/-! ### Comparison lemmas -/

theorem lexCmp_self : ∀ l : List Nat, lexCmp l l = .eq
  | [] => rfl
  | _ :: as => by simp [lexCmp, lexCmp_self as]

theorem lexCmp_eq_iff : ∀ a b : List Nat, lexCmp a b = .eq ↔ a = b
  | [], [] => by simp [lexCmp]
  | [], _ :: _ => by simp [lexCmp]
  | _ :: _, [] => by simp [lexCmp]
  | a :: as, b :: bs => by
    simp only [lexCmp, List.cons.injEq]
    by_cases h₁ : a < b
    · rw [if_pos h₁]
      constructor
      · intro h; exact absurd h (by decide)
      · rintro ⟨h, -⟩; omega
    · by_cases h₂ : b < a
      · rw [if_neg h₁, if_pos h₂]
        constructor
        · intro h; exact absurd h (by decide)
        · rintro ⟨h, -⟩; omega
      · have hab : a = b := by omega
        rw [if_neg h₁, if_neg h₂, lexCmp_eq_iff as bs]
        simp [hab]

theorem lexCmp_gt_iff : ∀ a b : List Nat, lexCmp a b = .gt ↔ lexCmp b a = .lt
  | [], [] => by simp [lexCmp]
  | [], _ :: _ => by simp [lexCmp]
  | _ :: _, [] => by simp [lexCmp]
  | a :: as, b :: bs => by
    simp only [lexCmp]
    by_cases h₁ : a < b
    · rw [if_pos h₁, if_neg (by omega : ¬ b < a), if_pos h₁]
      constructor
      · intro h; exact absurd h (by decide)
      · intro h; exact absurd h (by decide)
    · by_cases h₂ : b < a
      · rw [if_neg h₁, if_pos h₂, if_pos h₂]
        simp
      · rw [if_neg h₁, if_neg h₂, if_neg h₂, if_neg h₁]
        exact lexCmp_gt_iff as bs

theorem lexCmp_ne_of_lt {a b : List Nat} (h : lexCmp a b = .lt) : a ≠ b := by
  intro hab
  rw [hab, lexCmp_self] at h
  exact absurd h (by decide)

theorem lexCmp_lt_trans : ∀ a b c : List Nat,
    lexCmp a b = .lt → lexCmp b c = .lt → lexCmp a c = .lt
  | [], [], c => by intro h; exact absurd h (by simp [lexCmp])
  | [], _ :: _, [] => by intro _ h; exact absurd h (by simp [lexCmp])
  | [], _ :: _, _ :: _ => by intro _ _; simp [lexCmp]
  | _ :: _, [], _ => by intro h; exact absurd h (by simp [lexCmp])
  | _ :: _, _ :: _, [] => by intro _ h; exact absurd h (by simp [lexCmp])
  | a :: as, b :: bs, c :: cs => by
    intro h₁ h₂
    simp only [lexCmp] at h₁ h₂ ⊢
    by_cases hab : a < b
    · by_cases hbc : b < c
      · rw [if_pos (by omega : a < c)]
      · by_cases hcb : c < b
        · rw [if_neg hbc, if_pos hcb] at h₂; exact absurd h₂ (by decide)
        · have : b = c := by omega
          subst this
          rw [if_pos hab]
    · by_cases hba : b < a
      · rw [if_neg hab, if_pos hba] at h₁
        exact absurd h₁ (by decide)
      · have : a = b := by omega
        subst this
        rw [if_neg hab, if_neg hba] at h₁
        by_cases hac : a < c
        · rw [if_pos hac]
        · by_cases hca : c < a
          · rw [if_neg hac, if_pos hca] at h₂; exact absurd h₂ (by decide)
          · have : a = c := by omega
            subst this
            rw [if_neg hac, if_neg hca] at h₂ ⊢
            exact lexCmp_lt_trans as bs cs h₁ h₂

theorem ecmp_self (e : BackupEntry) : ecmp e e = .eq := lexCmp_self e.key

theorem ecmp_eq_iff {a b : BackupEntry} : ecmp a b = .eq ↔ a.key = b.key :=
  lexCmp_eq_iff a.key b.key

theorem ecmp_gt_iff {a b : BackupEntry} : ecmp a b = .gt ↔ ecmp b a = .lt :=
  lexCmp_gt_iff a.key b.key

theorem ecmp_lt_trans {a b c : BackupEntry} :
    ecmp a b = .lt → ecmp b c = .lt → ecmp a c = .lt :=
  lexCmp_lt_trans a.key b.key c.key

theorem ecmp_lt_ne_eq {a b : BackupEntry} (h : ecmp a b = .lt) : ecmp a b ≠ .eq := by
  rw [h]; decide

/-! ### Sorted-set lemmas (the `BTreeSet` model) -/


theorem mem_setInsert {x e : BackupEntry} :
    ∀ {s : List BackupEntry}, x ∈ setInsert e s → x = e ∨ x ∈ s
  | [], h => by simpa [setInsert] using h
  | y :: ys, h => by
    simp only [setInsert] at h
    match hc : ecmp e y with
    | .lt =>
      rw [hc] at h
      rcases List.mem_cons.1 h with rfl | h
      · exact Or.inl rfl
      · exact Or.inr h
    | .eq => rw [hc] at h; exact Or.inr h
    | .gt =>
      rw [hc] at h
      rcases List.mem_cons.1 h with rfl | h
      · exact Or.inr (List.mem_cons_self _ _)
      · rcases mem_setInsert h with h | h
        · exact Or.inl h
        · exact Or.inr (List.mem_cons_of_mem _ h)

theorem mem_setInsert_of_mem {x e : BackupEntry} :
    ∀ {s : List BackupEntry}, x ∈ s → x ∈ setInsert e s
  | [], h => by cases h
  | y :: ys, h => by
    simp only [setInsert]
    match hc : ecmp e y with
    | .lt => exact List.mem_cons_of_mem e h
    | .eq => exact h
    | .gt =>
      rcases List.mem_cons.1 h with h | h
      · exact List.mem_cons.2 (Or.inl h)
      · exact List.mem_cons.2 (Or.inr (mem_setInsert_of_mem h))

theorem setInsert_cover (e : BackupEntry) :
    ∀ s : List BackupEntry, ∃ x ∈ setInsert e s, ecmp x e = .eq
  | [] => ⟨e, by simp [setInsert], ecmp_self e⟩
  | y :: ys => by
    simp only [setInsert]
    match hc : ecmp e y with
    | .lt => exact ⟨e, by simp, ecmp_self e⟩
    | .eq =>
      refine ⟨y, by simp, ?_⟩
      rw [ecmp_eq_iff] at hc ⊢
      exact hc.symm
    | .gt =>
      obtain ⟨x, hx, hxe⟩ := setInsert_cover e ys
      exact ⟨x, List.mem_cons.2 (Or.inr hx), hxe⟩

theorem sortedE_setInsert (e : BackupEntry) :
    ∀ {s : List BackupEntry}, SortedE s → SortedE (setInsert e s)
  | [], _ => List.pairwise_singleton _ e
  | y :: ys, h => by
    rw [SortedE, List.pairwise_cons] at h
    obtain ⟨hy, hys⟩ := h
    simp only [setInsert]
    match hc : ecmp e y with
    | .lt =>
      rw [SortedE, List.pairwise_cons]
      refine ⟨?_, List.pairwise_cons.2 ⟨hy, hys⟩⟩
      intro z hz
      rcases List.mem_cons.1 hz with rfl | hz
      · exact hc
      · exact ecmp_lt_trans hc (hy z hz)
    | .eq => exact List.pairwise_cons.2 ⟨hy, hys⟩
    | .gt =>
      rw [SortedE, List.pairwise_cons]
      refine ⟨?_, sortedE_setInsert e hys⟩
      intro z hz
      rcases mem_setInsert hz with rfl | hz
      · exact ecmp_gt_iff.1 hc
      · exact hy z hz

theorem mem_insertAll {x : BackupEntry} :
    ∀ {l s : List BackupEntry}, x ∈ insertAll l s → x ∈ l ∨ x ∈ s
  | [], s, h => Or.inr h
  | e :: l, s, h => by
    rcases mem_insertAll (l := l) (s := setInsert e s) h with h | h
    · exact Or.inl (List.mem_cons_of_mem e h)
    · rcases mem_setInsert h with rfl | h
      · exact Or.inl (List.mem_cons_self x l)
      · exact Or.inr h

theorem mem_insertAll_of_mem {x : BackupEntry} :
    ∀ (l : List BackupEntry) {s : List BackupEntry}, x ∈ s → x ∈ insertAll l s
  | [], _, h => h
  | e :: l, s, h => mem_insertAll_of_mem l (mem_setInsert_of_mem h)

theorem insertAll_cover {e : BackupEntry} :
    ∀ {l : List BackupEntry} (s : List BackupEntry), e ∈ l →
      ∃ x ∈ insertAll l s, ecmp x e = .eq
  | [], _, h => by cases h
  | f :: l, s, h => by
    rcases List.mem_cons.1 h with rfl | h
    · obtain ⟨x, hx, hxe⟩ := setInsert_cover e s
      exact ⟨x, mem_insertAll_of_mem l hx, hxe⟩
    · exact insertAll_cover (setInsert f s) h

theorem sortedE_insertAll :
    ∀ (l : List BackupEntry) {s : List BackupEntry}, SortedE s → SortedE (insertAll l s)
  | [], _, h => h
  | e :: l, _, h => sortedE_insertAll l (sortedE_setInsert e h)

theorem sortedE_entrySet (l : List BackupEntry) : SortedE (entrySet l) :=
  sortedE_insertAll l List.Pairwise.nil

theorem mem_entrySet {x : BackupEntry} {l : List BackupEntry} (h : x ∈ entrySet l) :
    x ∈ l := by
  rcases mem_insertAll h with h | h
  · exact h
  · cases h

theorem entrySet_cover {e : BackupEntry} {l : List BackupEntry} (h : e ∈ l) :
    ∃ x ∈ entrySet l, ecmp x e = .eq :=
  insertAll_cover _ h

theorem pairwise_mem_cases {α : Type} {R : α → α → Prop} {x y : α} :
    ∀ {l : List α}, l.Pairwise R → x ∈ l → y ∈ l → x = y ∨ R x y ∨ R y x
  | [], _, hx, _ => by cases hx
  | a :: l, h, hx, hy => by
    rw [List.pairwise_cons] at h
    rcases List.mem_cons.1 hx with hxa | hx
    · rcases List.mem_cons.1 hy with hya | hy
      · exact Or.inl (hxa.trans hya.symm)
      · refine Or.inr (Or.inl ?_)
        rw [hxa]
        exact h.1 y hy
    · rcases List.mem_cons.1 hy with hya | hy
      · refine Or.inr (Or.inr ?_)
        rw [hya]
        exact h.1 x hx
      · exact pairwise_mem_cases h.2 hx hy

theorem sortedE_key_inj {l : List BackupEntry} (hs : SortedE l) {x y : BackupEntry}
    (hx : x ∈ l) (hy : y ∈ l) (hxy : ecmp x y = .eq) : x = y := by
  rcases pairwise_mem_cases hs hx hy with h | h | h
  · exact h
  · rw [h] at hxy; exact absurd hxy (by decide)
  · rw [ecmp_eq_iff] at hxy
    rw [ecmp, hxy, lexCmp_self] at h
    exact absurd h (by decide)

/-! ### Sorted-association-list lemmas (the `BTreeMap` model) -/


/-- Membership in `mapInsert` implies being the new binding or an old one
(no sortedness needed). -/
theorem mem_mapInsert_sub {p : List Nat × BackupEntry} {k : List Nat} {e : BackupEntry} :
    ∀ {m : List (List Nat × BackupEntry)}, p ∈ mapInsert k e m → p = (k, e) ∨ p ∈ m
  | [], h => by simpa [mapInsert] using h
  | (k₁, y) :: xs, h => by
    simp only [mapInsert] at h
    match hc : lexCmp k k₁ with
    | .lt =>
      rw [hc] at h
      rcases List.mem_cons.1 h with rfl | h
      · exact Or.inl rfl
      · exact Or.inr h
    | .eq =>
      rw [hc] at h
      rcases List.mem_cons.1 h with rfl | h
      · exact Or.inl rfl
      · exact Or.inr (List.mem_cons_of_mem _ h)
    | .gt =>
      rw [hc] at h
      rcases List.mem_cons.1 h with rfl | h
      · exact Or.inr (List.mem_cons_self _ _)
      · rcases mem_mapInsert_sub h with h | h
        · exact Or.inl h
        · exact Or.inr (List.mem_cons_of_mem _ h)

theorem ksorted_mapInsert (k : List Nat) (e : BackupEntry) :
    ∀ {m : List (List Nat × BackupEntry)}, KSorted m → KSorted (mapInsert k e m)
  | [], _ => List.pairwise_singleton _ _
  | (k₁, y) :: xs, h => by
    rw [KSorted, List.pairwise_cons] at h
    obtain ⟨hy, hys⟩ := h
    simp only [mapInsert]
    match hc : lexCmp k k₁ with
    | .lt =>
      dsimp only
      rw [KSorted, List.pairwise_cons]
      refine ⟨?_, List.pairwise_cons.2 ⟨hy, hys⟩⟩
      intro z hz
      rcases List.mem_cons.1 hz with rfl | hz
      · exact hc
      · exact lexCmp_lt_trans _ _ _ hc (hy z hz)
    | .eq =>
      dsimp only
      rw [KSorted, List.pairwise_cons]
      have hkk : k = k₁ := (lexCmp_eq_iff k k₁).1 hc
      exact ⟨fun z hz => hkk ▸ hy z hz, hys⟩
    | .gt =>
      dsimp only
      rw [KSorted, List.pairwise_cons]
      refine ⟨?_, ksorted_mapInsert k e hys⟩
      intro z hz
      rcases mem_mapInsert_sub hz with rfl | hz
      · exact (lexCmp_gt_iff k k₁).1 hc
      · exact hy z hz

/-- Full characterisation of `mapInsert` membership on a sorted map. -/
theorem mem_mapInsert {k : List Nat} {e : BackupEntry} :
    ∀ {m : List (List Nat × BackupEntry)}, KSorted m → ∀ k₂ x,
      ((k₂, x) ∈ mapInsert k e m ↔ (k₂ = k ∧ x = e) ∨ ((k₂, x) ∈ m ∧ k₂ ≠ k))
  | [], _, k₂, x => by simp [mapInsert, Prod.mk.injEq]
  | (k₁, y) :: xs, h, k₂, x => by
    rw [KSorted, List.pairwise_cons] at h
    obtain ⟨hy, hys⟩ := h
    simp only [mapInsert]
    match hc : lexCmp k k₁ with
    | .lt =>
      dsimp only
      constructor
      · intro hm
        rcases List.mem_cons.1 hm with heq | hm
        · rw [Prod.mk.injEq] at heq
          exact Or.inl heq
        · refine Or.inr ⟨hm, ?_⟩
          intro hk
          rcases List.mem_cons.1 hm with heq | hm2
          · rw [Prod.mk.injEq] at heq
            exact lexCmp_ne_of_lt hc (hk.symm.trans heq.1)
          · have hlt := hy (k₂, x) hm2
            exact lexCmp_ne_of_lt (lexCmp_lt_trans _ _ _ hc hlt) hk.symm
      · intro hm
        rcases hm with ⟨rfl, rfl⟩ | ⟨hm, -⟩
        · exact List.mem_cons_self _ _
        · exact List.mem_cons_of_mem _ hm
    | .eq =>
      dsimp only
      have hkk : k = k₁ := (lexCmp_eq_iff k k₁).1 hc
      constructor
      · intro hm
        rcases List.mem_cons.1 hm with heq | hm
        · rw [Prod.mk.injEq] at heq
          exact Or.inl heq
        · refine Or.inr ⟨List.mem_cons_of_mem _ hm, ?_⟩
          intro hk
          exact lexCmp_ne_of_lt (hy (k₂, x) hm) (hk.trans hkk).symm
      · intro hm
        rcases hm with ⟨rfl, rfl⟩ | ⟨hm, hne⟩
        · exact List.mem_cons_self _ _
        · rcases List.mem_cons.1 hm with heq | hm
          · rw [Prod.mk.injEq] at heq
            exact absurd (heq.1.trans hkk.symm) hne
          · exact List.mem_cons_of_mem _ hm
    | .gt =>
      dsimp only
      have hk₁ : k₁ ≠ k := lexCmp_ne_of_lt ((lexCmp_gt_iff k k₁).1 hc)
      constructor
      · intro hm
        rcases List.mem_cons.1 hm with heq | hm
        · rw [Prod.mk.injEq] at heq
          obtain ⟨rfl, rfl⟩ := heq
          exact Or.inr ⟨List.mem_cons_self _ _, hk₁⟩
        · rcases (mem_mapInsert hys k₂ x).1 hm with hnew | ⟨hold, hne⟩
          · exact Or.inl hnew
          · exact Or.inr ⟨List.mem_cons_of_mem _ hold, hne⟩
      · intro hm
        rcases hm with ⟨rfl, rfl⟩ | ⟨hm, hne⟩
        · exact List.mem_cons_of_mem _ ((mem_mapInsert hys k₂ x).2 (Or.inl ⟨rfl, rfl⟩))
        · rcases List.mem_cons.1 hm with heq | hm
          · rw [Prod.mk.injEq] at heq
            obtain ⟨rfl, rfl⟩ := heq
            exact List.mem_cons_self _ _
          · exact List.mem_cons_of_mem _ ((mem_mapInsert hys k₂ x).2 (Or.inr ⟨hm, hne⟩))


/-- Characterisation of the slot-map fold: processing entries in strictly
descending order with replace-on-insert leaves, for every key, the
smallest processed entry with that truncation key (and untouched old
bindings for keys that never occur). -/
theorem mapFold_char (t : Period) :
    ∀ (ds : List BackupEntry) (m : List (List Nat × BackupEntry)),
      KSorted m →
      (∀ p ∈ m, tierKey t p.2 = p.1) →
      (∀ p ∈ m, ∀ e ∈ ds, ecmp p.2 e = .gt) →
      ds.Pairwise (fun a b => ecmp a b = .gt) →
      KSorted (mapFold t ds m) ∧
      (∀ p ∈ mapFold t ds m, tierKey t p.2 = p.1) ∧
      (∀ k x, ((k, x) ∈ mapFold t ds m ↔
        ((x ∈ ds ∧ tierKey t x = k ∧ ∀ y ∈ ds, tierKey t y = k → ecmp x y ≠ .gt) ∨
         ((k, x) ∈ m ∧ ∀ y ∈ ds, tierKey t y ≠ k))))
  | [], m, hks, hbind, _, _ => by
    refine ⟨hks, hbind, ?_⟩
    intro k x
    simp [mapFold]
  | e₀ :: ds, m, hks, hbind, hgt, hpair => by
    rw [List.pairwise_cons] at hpair
    obtain ⟨he₀, hpair⟩ := hpair
    have hstep : mapFold t (e₀ :: ds) m = mapFold t ds (mapInsert (tierKey t e₀) e₀ m) := rfl
    have hks₁ : KSorted (mapInsert (tierKey t e₀) e₀ m) := ksorted_mapInsert _ _ hks
    have hbind₁ : ∀ p ∈ mapInsert (tierKey t e₀) e₀ m, tierKey t p.2 = p.1 := by
      intro p hp
      rcases mem_mapInsert_sub hp with rfl | hp
      · rfl
      · exact hbind p hp
    have hgt₁ : ∀ p ∈ mapInsert (tierKey t e₀) e₀ m, ∀ e ∈ ds, ecmp p.2 e = .gt := by
      intro p hp e he
      rcases mem_mapInsert_sub hp with rfl | hp
      · exact he₀ e he
      · exact hgt p hp e (List.mem_cons_of_mem _ he)
    obtain ⟨hksf, hbindf, hchar⟩ := mapFold_char t ds _ hks₁ hbind₁ hgt₁ hpair
    rw [hstep]
    refine ⟨hksf, hbindf, ?_⟩
    intro k x
    rw [hchar k x]
    constructor
    · rintro (⟨hxds, hkx, hmin⟩ | ⟨hm₁x, hnew⟩)
      · refine Or.inl ⟨List.mem_cons_of_mem _ hxds, hkx, ?_⟩
        intro y hy hky
        rcases List.mem_cons.1 hy with rfl | hy
        · have hgx := he₀ x hxds
          rw [ecmp_gt_iff] at hgx
          rw [hgx]
          decide
        · exact hmin y hy hky
      · rcases (mem_mapInsert hks k x).1 hm₁x with ⟨rfl, rfl⟩ | ⟨hmx, hne⟩
        · refine Or.inl ⟨List.mem_cons_self _ _, rfl, ?_⟩
          intro y hy hky
          rcases List.mem_cons.1 hy with rfl | hy
          · rw [ecmp_self]
            decide
          · exact absurd hky (hnew y hy)
        · refine Or.inr ⟨hmx, ?_⟩
          intro y hy
          rcases List.mem_cons.1 hy with rfl | hy
          · exact fun hk => hne hk.symm
          · exact hnew y hy
    · rintro (⟨hxds, hkx, hmin⟩ | ⟨hmx, hnew⟩)
      · rcases List.mem_cons.1 hxds with rfl | hxds
        · refine Or.inr ⟨(mem_mapInsert hks k x).2 (Or.inl ⟨hkx.symm, rfl⟩), ?_⟩
          intro y hy hky
          exact hmin y (List.mem_cons_of_mem _ hy) hky (he₀ y hy)
        · exact Or.inl ⟨hxds, hkx, fun y hy hky => hmin y (List.mem_cons_of_mem _ hy) hky⟩
      · refine Or.inr ⟨(mem_mapInsert hks k x).2 (Or.inr ⟨hmx, ?_⟩), ?_⟩
        · exact fun hk => hnew e₀ (List.mem_cons_self _ _) hk.symm
        · exact fun y hy => hnew y (List.mem_cons_of_mem _ hy)

/-- The tier slot map holds, for each occupied truncation key, exactly
the `ecmp`-least entry of that key's bucket. -/
theorem tierMap_char {t : Period} {es : List BackupEntry} (hs : SortedE es) (k : List Nat)
    (x : BackupEntry) :
    (k, x) ∈ tierMap t es ↔
      (x ∈ es ∧ tierKey t x = k ∧ ∀ y ∈ es, tierKey t y = k → ecmp x y ≠ .gt) := by
  have hpair : es.reverse.Pairwise (fun a b => ecmp a b = .gt) := by
    refine List.pairwise_reverse.2 (List.Pairwise.imp ?_ hs)
    intro a b hab
    exact ecmp_gt_iff.2 hab
  have h := (mapFold_char t es.reverse [] List.Pairwise.nil (by simp) (by simp) hpair).2.2 k x
  have hiff : tierMap t es = mapFold t es.reverse [] := rfl
  rw [hiff, h]
  simp [List.mem_reverse]

/-- Everything a tier selects is a slot-map value. -/
theorem mem_tierSel {t : Period} {n : Nat} {es : List BackupEntry} {x : BackupEntry}
    (h : x ∈ tierSel t n es) : ∃ k, (k, x) ∈ tierMap t es := by
  rw [tierSel] at h
  obtain ⟨p, hp, hpx⟩ := List.mem_map.1 h
  have hp2 : p ∈ (tierMap t es).reverse := List.take_subset _ _ hp
  rw [List.mem_reverse] at hp2
  refine ⟨p.1, ?_⟩
  rw [← hpx, Prod.mk.eta]
  exact hp2

theorem tierSel_sub {t : Period} {n : Nat} {es : List BackupEntry} (hs : SortedE es)
    {x : BackupEntry} (h : x ∈ tierSel t n es) : x ∈ es := by
  obtain ⟨k, hk⟩ := mem_tierSel h
  exact ((tierMap_char hs k x).1 hk).1

/-- A selected entry is the `ecmp`-least entry of its bucket. -/
theorem tierSel_min {t : Period} {n : Nat} {es : List BackupEntry} (hs : SortedE es)
    {x : BackupEntry} (h : x ∈ tierSel t n es) :
    ∀ y ∈ es, tierKey t y = tierKey t x → ecmp x y ≠ .gt := by
  obtain ⟨k, hk⟩ := mem_tierSel h
  obtain ⟨-, hkx, hmin⟩ := (tierMap_char hs k x).1 hk
  intro y hy hky
  exact hmin y hy (by rw [hky, hkx])

/-- Tier selections grow monotonically with the slot count. -/
theorem tierSel_mono {t : Period} {n₁ n₂ : Nat} (h : n₁ ≤ n₂) {es : List BackupEntry}
    {x : BackupEntry} (hx : x ∈ tierSel t n₁ es) : x ∈ tierSel t n₂ es := by
  rw [tierSel] at hx ⊢
  obtain ⟨p, hp, hpx⟩ := List.mem_map.1 hx
  refine List.mem_map.2 ⟨p, ?_, hpx⟩
  have h1 : ((tierMap t es).reverse).take n₁ = (((tierMap t es).reverse).take n₂).take n₁ := by
    rw [List.take_take, Nat.min_eq_left h]
  rw [h1] at hp
  exact List.take_subset _ _ hp

/-! ### Extraction and plan membership lemmas -/

/-- A successfully extracted entry carries the path it was extracted from. -/
theorem new_path {n : OsName} {pats : List String} {re : Re} {e : BackupEntry}
    (h : BackupEntry.new n pats re = some e) : e.path = n := by
  cases n with
  | invalid => simp [BackupEntry.new, OsName.toStr] at h
  | utf8 s =>
    simp only [BackupEntry.new, OsName.toStr] at h
    split at h
    · exact Option.noConfusion h
    · split at h
      · exact Option.noConfusion h
      · split at h
        · injection h with h2
          subst h2
          rfl
        · exact Option.noConfusion h

theorem mem_allPeriods (t : Period) : t ∈ allPeriods := by
  cases t <;> decide

theorem mem_keepSet {c : SlotConfig} {es : List BackupEntry} (hs : SortedE es)
    {x : BackupEntry} : x ∈ keepSet c es ↔ ∃ t : Period, x ∈ selOf c es t := by
  constructor
  · intro h
    rcases mem_insertAll h with h | h
    · obtain ⟨l, hl, hxl⟩ := List.mem_flatten.1 h
      obtain ⟨t, -, rfl⟩ := List.mem_map.1 hl
      exact ⟨t, hxl⟩
    · cases h
  · rintro ⟨t, ht⟩
    have hflat : x ∈ (allPeriods.map (selOf c es)).flatten :=
      List.mem_flatten.2 ⟨selOf c es t, List.mem_map.2 ⟨t, mem_allPeriods t, rfl⟩, ht⟩
    obtain ⟨z, hz, hzx⟩ := insertAll_cover ([] : List BackupEntry) hflat
    have hzes : z ∈ es := by
      rcases mem_insertAll hz with hz2 | hz2
      · obtain ⟨l, hl, hzl⟩ := List.mem_flatten.1 hz2
        obtain ⟨u, -, rfl⟩ := List.mem_map.1 hl
        rw [selOf] at hzl
        exact tierSel_sub hs hzl
      · cases hz2
    have hxes : x ∈ es := by
      rw [selOf] at ht
      exact tierSel_sub hs ht
    have hzx2 : z = x := sortedE_key_inj hs hzes hxes hzx
    rw [← hzx2]
    exact hz

theorem keepSet_sub {c : SlotConfig} {es : List BackupEntry} (hs : SortedE es)
    {x : BackupEntry} (h : x ∈ keepSet c es) : x ∈ es := by
  obtain ⟨t, ht⟩ := (mem_keepSet hs).1 h
  rw [selOf] at ht
  exact tierSel_sub hs ht

theorem mem_toRemoveSet {es keep : List BackupEntry} {e : BackupEntry} :
    e ∈ toRemoveSet es keep ↔ e ∈ es ∧ ∀ k ∈ keep, ecmp e k ≠ .eq := by
  rw [toRemoveSet, List.mem_filter]
  simp only [Bool.not_eq_true', List.any_eq_false]
  constructor
  · rintro ⟨h1, h2⟩
    refine ⟨h1, fun k hk he => ?_⟩
    have hb := h2 k hk
    rw [he] at hb
    exact absurd hb (by decide)
  · rintro ⟨h1, h2⟩
    refine ⟨h1, fun k hk hbeq => ?_⟩
    match hcc : ecmp e k with
    | .lt => rw [hcc] at hbeq; exact absurd hbeq (by decide)
    | .eq => exact h2 k hk hcc
    | .gt => rw [hcc] at hbeq; exact absurd hbeq (by decide)

theorem entriesOf_valid {c : Config} {names : List OsName} {e : BackupEntry}
    (h : e ∈ entriesOf c names) :
    e.path ∈ names ∧ BackupEntry.new e.path c.pattern c.re = some e := by
  have h1 : e ∈ validEntries c names := mem_entrySet h
  obtain ⟨n, hn, hne⟩ := List.mem_filterMap.1 h1
  have hp : e.path = n := new_path hne
  constructor
  · rw [hp]; exact hn
  · rw [hp]; exact hne

theorem entriesOf_path_inj {c : Config} {names : List OsName} {e₁ e₂ : BackupEntry}
    (h1 : e₁ ∈ entriesOf c names) (h2 : e₂ ∈ entriesOf c names)
    (hp : e₁.path = e₂.path) : e₁ = e₂ := by
  obtain ⟨-, hn1⟩ := entriesOf_valid h1
  obtain ⟨-, hn2⟩ := entriesOf_valid h2
  rw [hp] at hn1
  exact Option.some.inj (hn1.symm.trans hn2)

theorem mem_planKeep {c : Config} {names : List OsName} {p : OsName} :
    p ∈ (planFrom c names).toKeep ↔
      ∃ e, (∃ t : Period, e ∈ selOf c.slots (entriesOf c names) t) ∧ e.path = p := by
  simp only [planFrom]
  constructor
  · intro h
    obtain ⟨e, he, hep⟩ := List.mem_map.1 h
    exact ⟨e, (mem_keepSet (sortedE_entrySet _)).1 he, hep⟩
  · rintro ⟨e, ht, rfl⟩
    exact List.mem_map.2 ⟨e, (mem_keepSet (sortedE_entrySet _)).2 ht, rfl⟩

theorem mem_planRemove {c : Config} {names : List OsName} {p : OsName} :
    p ∈ (planFrom c names).toRemove ↔
      ∃ e, (e ∈ entriesOf c names ∧
            ∀ k ∈ keepSet c.slots (entriesOf c names), ecmp e k ≠ .eq) ∧ e.path = p := by
  simp only [planFrom]
  constructor
  · intro h
    obtain ⟨e, he, hep⟩ := List.mem_map.1 h
    exact ⟨e, mem_toRemoveSet.1 he, hep⟩
  · rintro ⟨e, ht, rfl⟩
    exact List.mem_map.2 ⟨e, mem_toRemoveSet.2 ht, rfl⟩

theorem plan_disjoint {c : Config} {names : List OsName} {p : OsName}
    (hk : p ∈ (planFrom c names).toKeep) (hr : p ∈ (planFrom c names).toRemove) : False := by
  obtain ⟨ek, ⟨t, hsel⟩, hekp⟩ := mem_planKeep.1 hk
  obtain ⟨er, ⟨heres, hnone⟩, herp⟩ := mem_planRemove.1 hr
  have hkeep : ek ∈ keepSet c.slots (entriesOf c names) :=
    (mem_keepSet (sortedE_entrySet _)).2 ⟨t, hsel⟩
  have hekes : ek ∈ entriesOf c names := keepSet_sub (sortedE_entrySet _) hkeep
  have hre : er = ek := entriesOf_path_inj heres hekes (herp.trans hekp.symm)
  refine hnone ek hkeep ?_
  rw [hre]
  exact ecmp_self ek

theorem plan_mem_valid {c : Config} {names : List OsName} {p : OsName}
    (h : p ∈ (planFrom c names).toKeep ∨ p ∈ (planFrom c names).toRemove) :
    p ∈ names ∧ (BackupEntry.new p c.pattern c.re).isSome := by
  rcases h with h | h
  · obtain ⟨e, ⟨t, hsel⟩, rfl⟩ := mem_planKeep.1 h
    have hes : e ∈ entriesOf c names :=
      keepSet_sub (sortedE_entrySet _) ((mem_keepSet (sortedE_entrySet _)).2 ⟨t, hsel⟩)
    obtain ⟨hn, hne⟩ := entriesOf_valid hes
    exact ⟨hn, by rw [hne]; rfl⟩
  · obtain ⟨e, ⟨hes, -⟩, rfl⟩ := mem_planRemove.1 h
    obtain ⟨hn, hne⟩ := entriesOf_valid hes
    exact ⟨hn, by rw [hne]; rfl⟩

theorem plan_cover {c : Config} {names : List OsName}
    (hdist : ∀ n₁ n₂ e₁ e₂, n₁ ∈ names → n₂ ∈ names →
      BackupEntry.new n₁ c.pattern c.re = some e₁ →
      BackupEntry.new n₂ c.pattern c.re = some e₂ → e₁.key = e₂.key → n₁ = n₂) :
    ∀ n ∈ names, ∀ e, BackupEntry.new n c.pattern c.re = some e →
      n ∈ (planFrom c names).toKeep ∨ n ∈ (planFrom c names).toRemove := by
  intro n hn e hne
  have hv : e ∈ validEntries c names := List.mem_filterMap.2 ⟨n, hn, hne⟩
  obtain ⟨x, hx, hxe⟩ := entrySet_cover hv
  have hx2 : x ∈ entriesOf c names := hx
  obtain ⟨hxn, hxnew⟩ := entriesOf_valid hx2
  have hkey : x.key = e.key := ecmp_eq_iff.1 hxe
  have hpn : x.path = n := hdist x.path n x e hxn hn hxnew hne hkey
  have hxE : x = e := by
    rw [hpn] at hxnew
    exact Option.some.inj (hxnew.symm.trans hne)
  rw [hxE] at hx2
  by_cases hk : ∀ k ∈ keepSet c.slots (entriesOf c names), ecmp e k ≠ .eq
  · exact Or.inr (mem_planRemove.2 ⟨e, ⟨hx2, hk⟩, new_path hne⟩)
  · push_neg at hk
    obtain ⟨k, hkk, hke⟩ := hk
    have hkes : k ∈ entriesOf c names := keepSet_sub (sortedE_entrySet _) hkk
    have hek : e = k := sortedE_key_inj (sortedE_entrySet _) hx2 hkes hke
    refine Or.inl (mem_planKeep.2 ⟨k, (mem_keepSet (sortedE_entrySet _)).1 hkk, ?_⟩)
    rw [← hek]
    exact new_path hne

theorem mem_tagAll {t u : Period} :
    ∀ (l : List BackupEntry) (f : OsName → List Period) (q : OsName),
      u ∈ tagAll t l f q → (u = t ∧ ∃ e ∈ l, e.path = q) ∨ u ∈ f q
  | [], _, _, h => Or.inr h
  | e :: l, f, q, h => by
    rcases mem_tagAll l _ q h with ⟨rfl, e2, he2, hp⟩ | h2
    · exact Or.inl ⟨rfl, e2, List.mem_cons_of_mem _ he2, hp⟩
    · have h3 : u ∈ if q = e.path then f q ++ [t] else f q := h2
      by_cases hq : q = e.path
      · rw [if_pos hq] at h3
        rcases List.mem_append.1 h3 with h4 | h4
        · exact Or.inr h4
        · exact Or.inl ⟨List.mem_singleton.1 h4, e, List.mem_cons_self _ _, hq.symm⟩
      · rw [if_neg hq] at h3
        exact Or.inr h3

theorem mem_periodMapF {c : SlotConfig} {es : List BackupEntry} {u : Period} {q : OsName}
    (h : u ∈ periodMapF c es q) : ∃ e ∈ selOf c es u, e.path = q := by
  have h0 : periodMapF c es = tagAll .minutes (selOf c es .minutes)
      (tagAll .hours (selOf c es .hours) (tagAll .days (selOf c es .days)
        (tagAll .months (selOf c es .months)
          (tagAll .years (selOf c es .years) (fun _ => []))))) := rfl
  rw [h0] at h
  rcases mem_tagAll _ _ _ h with ⟨rfl, he⟩ | h
  · exact he
  rcases mem_tagAll _ _ _ h with ⟨rfl, he⟩ | h
  · exact he
  rcases mem_tagAll _ _ _ h with ⟨rfl, he⟩ | h
  · exact he
  rcases mem_tagAll _ _ _ h with ⟨rfl, he⟩ | h
  · exact he
  rcases mem_tagAll _ _ _ h with ⟨rfl, he⟩ | h
  · exact he
  · exact absurd h (List.not_mem_nil u)

theorem tierSel_zero (t : Period) (es : List BackupEntry) : tierSel t 0 es = [] := by
  simp [tierSel]


theorem slotsOf_bumpSlot (c : SlotConfig) (t u : Period) (d : Nat) :
    slotsOf c u ≤ slotsOf (bumpSlot c t d) u := by
  cases t <;> cases u <;> simp [bumpSlot, slotsOf]

/-! ### Claims C1, C2, C3, C8 -/

/-- Claim C1 counterexample: two distinct valid filenames with the same
timestamp.  Both pass the (empty) filter and match the grammar, but
`2020-01-01.log` collapses with `2020-01-01` in the tuple-ordered
`BTreeSet` and ends up in neither `to_keep` nor `to_remove`. -/
theorem c1_counterexample :
    (BackupEntry.new (.utf8 "2020-01-01.log") [] defaultRe).isSome = true ∧
    OsName.utf8 "2020-01-01.log" ∉
      (planFrom ⟨⟨1, 0, 0, 0, 0⟩, [], defaultRe⟩
        [.utf8 "2020-01-01", .utf8 "2020-01-01.log"]).toKeep ∧
    OsName.utf8 "2020-01-01.log" ∉
      (planFrom ⟨⟨1, 0, 0, 0, 0⟩, [], defaultRe⟩
        [.utf8 "2020-01-01", .utf8 "2020-01-01.log"]).toRemove := by
  decide

/-- Claim C1 (amended): `toKeep` and `toRemove` are disjoint and contain
only valid input filenames; provided no two distinct valid filenames
share the same `(year, month, day, hour, minute)` tuple, every valid
filename appears in exactly one of the two lists. -/
theorem c1_plan_partition (c : Config) (names : List OsName) :
    (∀ p, p ∈ (planFrom c names).toKeep → p ∉ (planFrom c names).toRemove) ∧
    (∀ p, p ∈ (planFrom c names).toKeep ∨ p ∈ (planFrom c names).toRemove →
      p ∈ names ∧ (BackupEntry.new p c.pattern c.re).isSome) ∧
    ((∀ n₁ n₂ e₁ e₂, n₁ ∈ names → n₂ ∈ names →
        BackupEntry.new n₁ c.pattern c.re = some e₁ →
        BackupEntry.new n₂ c.pattern c.re = some e₂ → e₁.key = e₂.key → n₁ = n₂) →
      ∀ n ∈ names, (BackupEntry.new n c.pattern c.re).isSome →
        n ∈ (planFrom c names).toKeep ∨ n ∈ (planFrom c names).toRemove) := by
  refine ⟨fun p hk hr => plan_disjoint hk hr, fun p h => plan_mem_valid h, ?_⟩
  intro hdist n hn hsome
  obtain ⟨e, hne⟩ := Option.isSome_iff_exists.1 hsome
  exact plan_cover hdist n hn e hne

theorem c1_witness :
    OsName.utf8 "2020-01-01" ∈
      (planFrom ⟨⟨1, 0, 0, 0, 0⟩, [], defaultRe⟩
        [.utf8 "2020-01-01", .utf8 "2021-01-01"]).toKeep ∨
    OsName.utf8 "2020-01-01" ∈
      (planFrom ⟨⟨1, 0, 0, 0, 0⟩, [], defaultRe⟩
        [.utf8 "2020-01-01", .utf8 "2021-01-01"]).toRemove := by
  refine (c1_plan_partition ⟨⟨1, 0, 0, 0, 0⟩, [], defaultRe⟩
    [.utf8 "2020-01-01", .utf8 "2021-01-01"]).2.2 ?_ _ (by decide) (by decide)
  intro n₁ n₂ e₁ e₂ h1 h2 hn1 hn2 hkey
  have hA : BackupEntry.new (OsName.utf8 "2020-01-01") [] defaultRe =
      some ⟨2020, 1, 1, 0, 0, OsName.utf8 "2020-01-01"⟩ := by decide
  have hB : BackupEntry.new (OsName.utf8 "2021-01-01") [] defaultRe =
      some ⟨2021, 1, 1, 0, 0, OsName.utf8 "2021-01-01"⟩ := by decide
  rcases List.mem_cons.1 h1 with rfl | h1
  · rcases List.mem_cons.1 h2 with rfl | h2
    · rfl
    · have hn2e : n₂ = OsName.utf8 "2021-01-01" := List.mem_singleton.1 h2
      subst hn2e
      obtain rfl := Option.some.inj (hA.symm.trans hn1)
      obtain rfl := Option.some.inj (hB.symm.trans hn2)
      exact absurd hkey (by decide)
  · have hn1e : n₁ = OsName.utf8 "2021-01-01" := List.mem_singleton.1 h1
    subst hn1e
    rcases List.mem_cons.1 h2 with rfl | h2
    · obtain rfl := Option.some.inj (hB.symm.trans hn1)
      obtain rfl := Option.some.inj (hA.symm.trans hn2)
      exact absurd hkey (by decide)
    · have hn2e : n₂ = OsName.utf8 "2021-01-01" := List.mem_singleton.1 h2
      subst hn2e
      rfl

/-- Claim C2 counterexample: with `yearly = 1` and the two valid files
`2020-01-01` and `2020-06-01` in the same year bucket, the entry with the
greatest tuple is `2020-06-01`, yet the plan keeps `2020-01-01` (the
bucket representative) and removes `2020-06-01`: descending iteration
with replace-on-insert leaves the least tuple as representative. -/
theorem c2_counterexample :
    BackupEntry.new (.utf8 "2020-01-01") [] defaultRe =
      some ⟨2020, 1, 1, 0, 0, .utf8 "2020-01-01"⟩ ∧
    BackupEntry.new (.utf8 "2020-06-01") [] defaultRe =
      some ⟨2020, 6, 1, 0, 0, .utf8 "2020-06-01"⟩ ∧
    tierKey .years ⟨2020, 1, 1, 0, 0, .utf8 "2020-01-01"⟩ =
      tierKey .years ⟨2020, 6, 1, 0, 0, .utf8 "2020-06-01"⟩ ∧
    ecmp ⟨2020, 6, 1, 0, 0, .utf8 "2020-06-01"⟩ ⟨2020, 1, 1, 0, 0, .utf8 "2020-01-01"⟩ =
      .gt ∧
    (planFrom ⟨⟨1, 0, 0, 0, 0⟩, [], defaultRe⟩
      [.utf8 "2020-01-01", .utf8 "2020-06-01"]).toKeep = [.utf8 "2020-01-01"] ∧
    (planFrom ⟨⟨1, 0, 0, 0, 0⟩, [], defaultRe⟩
      [.utf8 "2020-01-01", .utf8 "2020-06-01"]).toRemove = [.utf8 "2020-06-01"] := by
  decide

/-- Claim C2 (amended): for every tier and every occupied truncation-key
bucket, the representative stored in the tier's slot map is the entry
with the lexicographically LEAST full tuple among the bucket's entries. -/
theorem c2_bucket_representative (c : Config) (names : List OsName) (t : Period)
    (k : List Nat) (x : BackupEntry) (h : (k, x) ∈ tierMap t (entriesOf c names)) :
    x ∈ entriesOf c names ∧ tierKey t x = k ∧
      ∀ y ∈ entriesOf c names, tierKey t y = k → ecmp x y ≠ .gt :=
  (tierMap_char (sortedE_entrySet _) k x).1 h

theorem c2_witness :
    (⟨2020, 1, 1, 0, 0, .utf8 "2020-01-01"⟩ : BackupEntry) ∈
      entriesOf ⟨⟨1, 0, 0, 0, 0⟩, [], defaultRe⟩
        [.utf8 "2020-01-01", .utf8 "2020-06-01"] :=
  (c2_bucket_representative ⟨⟨1, 0, 0, 0, 0⟩, [], defaultRe⟩
    [.utf8 "2020-01-01", .utf8 "2020-06-01"] .years [2020] _ (by decide)).1

/-- Claim C3: increasing a single tier's slot count (all other
configuration fields unchanged) only grows `toKeep`; a previously kept
path stays kept and is never moved to `toRemove`. -/
theorem c3_slot_monotonicity (s : SlotConfig) (pats : List String) (re : Re)
    (names : List OsName) (t : Period) (d : Nat) (p : OsName)
    (h : p ∈ (planFrom ⟨s, pats, re⟩ names).toKeep) :
    p ∈ (planFrom ⟨bumpSlot s t d, pats, re⟩ names).toKeep ∧
      p ∉ (planFrom ⟨bumpSlot s t d, pats, re⟩ names).toRemove := by
  have hk : p ∈ (planFrom ⟨bumpSlot s t d, pats, re⟩ names).toKeep := by
    rcases mem_planKeep.1 h with ⟨e, ⟨u, hsel⟩, rfl⟩
    refine mem_planKeep.2 ⟨e, ⟨u, ?_⟩, rfl⟩
    rw [selOf] at hsel ⊢
    exact tierSel_mono (slotsOf_bumpSlot s t u d) hsel
  exact ⟨hk, fun hr => plan_disjoint hk hr⟩

theorem c3_witness :
    OsName.utf8 "2021-01-01" ∈
      (planFrom ⟨bumpSlot ⟨1, 0, 0, 0, 0⟩ .years 1, [], defaultRe⟩
        [.utf8 "2020-01-01", .utf8 "2021-01-01"]).toKeep ∧
    OsName.utf8 "2021-01-01" ∉
      (planFrom ⟨bumpSlot ⟨1, 0, 0, 0, 0⟩ .years 1, [], defaultRe⟩
        [.utf8 "2020-01-01", .utf8 "2021-01-01"]).toRemove :=
  c3_slot_monotonicity ⟨1, 0, 0, 0, 0⟩ [] defaultRe
    [.utf8 "2020-01-01", .utf8 "2021-01-01"] .years 1 _ (by decide)

/-- Claim C8: a tier with zero slots contributes nothing: it never
appears in any path's tier attribution, and every kept path is selected
by some other tier. -/
theorem c8_zero_tier (s : SlotConfig) (pats : List String) (re : Re) (names : List OsName)
    (t : Period) (h : slotsOf s t = 0) :
    (∀ q : OsName, t ∉ (planFrom ⟨s, pats, re⟩ names).periodMap q) ∧
    (∀ p ∈ (planFrom ⟨s, pats, re⟩ names).toKeep, ∃ u : Period, u ≠ t ∧
      ∃ e ∈ selOf s (entriesOf ⟨s, pats, re⟩ names) u, e.path = p) := by
  constructor
  · intro q ht
    obtain ⟨e, he, -⟩ := mem_periodMapF ht
    rw [selOf, h, tierSel_zero] at he
    exact absurd he (List.not_mem_nil e)
  · intro p hp
    obtain ⟨e, ⟨u, hsel⟩, rfl⟩ := mem_planKeep.1 hp
    refine ⟨u, ?_, e, hsel, rfl⟩
    intro hut
    rw [hut, selOf, h, tierSel_zero] at hsel
    exact absurd hsel (List.not_mem_nil e)

theorem c8_witness :
    Period.months ∉
      (planFrom ⟨⟨1, 0, 0, 0, 0⟩, [], defaultRe⟩
        [.utf8 "2020-01-01", .utf8 "2021-01-01"]).periodMap (.utf8 "2021-01-01") :=
  (c8_zero_tier ⟨1, 0, 0, 0, 0⟩ [] defaultRe
    [.utf8 "2020-01-01", .utf8 "2021-01-01"] .months rfl).1 _

/-! ### Claims C6, C7, C9 -/

/-- Claim C6 counterexample: at the reachable `usize` inputs
`(2^63, 2^63, 0, 0, 0)` the `usize` sum wraps to 0, so a release build
returns `NoSlot` although two of the counts are strictly positive (a
debug build panics on the same inputs); construction neither succeeds
nor reflects the all-zero condition there. -/
theorem c6_counterexample :
    SlotConfig.new (2 ^ 63) (2 ^ 63) 0 0 0 = .error .noSlot ∧ (2 ^ 63 : Nat) ≠ 0 := by
  constructor
  · rw [SlotConfig.new, if_pos (by decide)]
  · decide

/-- Claim C6 (amended): construction fails with `NoSlot` exactly when the
`usize` sum of the five counts wraps to zero; in particular, whenever the
true sum does not overflow (is below 2^64), it fails with `NoSlot` if and
only if all five counts are zero, and with at least one positive count it
succeeds and returns a value holding exactly the five supplied counts. -/
theorem c6_slot_config (years months days hours minutes : Nat) :
    (SlotConfig.new years months days hours minutes = .error .noSlot ↔
      (years + months + days + hours + minutes) % usizeSize = 0) ∧
    (years + months + days + hours + minutes < usizeSize →
      (SlotConfig.new years months days hours minutes = .error .noSlot ↔
        years = 0 ∧ months = 0 ∧ days = 0 ∧ hours = 0 ∧ minutes = 0)) ∧
    (years + months + days + hours + minutes < usizeSize →
      years + months + days + hours + minutes ≠ 0 →
      SlotConfig.new years months days hours minutes =
        .ok ⟨years, months, days, hours, minutes⟩) := by
  have hiff : SlotConfig.new years months days hours minutes = .error .noSlot ↔
      (years + months + days + hours + minutes) % usizeSize = 0 := by
    by_cases h : (years + months + days + hours + minutes) % usizeSize = 0
    · rw [SlotConfig.new, if_pos h]
      exact ⟨fun _ => h, fun _ => rfl⟩
    · rw [SlotConfig.new, if_neg h]
      exact ⟨fun he => Except.noConfusion he, fun hc => absurd hc h⟩
  refine ⟨hiff, ?_, ?_⟩
  · intro hlt
    rw [hiff, Nat.mod_eq_of_lt hlt]
    omega
  · intro hlt hne
    rw [SlotConfig.new, if_neg]
    rw [Nat.mod_eq_of_lt hlt]
    exact hne

theorem c6_witness :
    SlotConfig.new 3 0 0 0 0 = .ok ⟨3, 0, 0, 0, 0⟩ ∧
    (SlotConfig.new 0 0 0 0 0 = .error .noSlot ↔
      0 = 0 ∧ 0 = 0 ∧ 0 = 0 ∧ 0 = 0 ∧ 0 = 0) :=
  ⟨(c6_slot_config 3 0 0 0 0).2.2 (by decide) (by decide),
   (c6_slot_config 0 0 0 0 0).2.1 (by decide)⟩

/-- Claim C7: constructing a `Config` from a grammar that compiled but
lacks a required named group fails with `MissingCaptureGroup` naming the
first missing group in the fixed order `year`, `month`, `day`; with all
three present it succeeds.  `Config::new` is a pure function of its
arguments — no directory is involved at construction. -/
theorem c7_missing_group (slots : SlotConfig) (pats : List String) (re : Re) :
    ("year" ∉ re.names →
      Config.new slots pats (some re) = .error (.missingCaptureGroup "year")) ∧
    ("year" ∈ re.names → "month" ∉ re.names →
      Config.new slots pats (some re) = .error (.missingCaptureGroup "month")) ∧
    ("year" ∈ re.names → "month" ∈ re.names → "day" ∉ re.names →
      Config.new slots pats (some re) = .error (.missingCaptureGroup "day")) ∧
    ("year" ∈ re.names → "month" ∈ re.names → "day" ∈ re.names →
      Config.new slots pats (some re) = .ok ⟨slots, pats, re⟩) := by
  refine ⟨?_, ?_, ?_, ?_⟩
  · intro h1
    simp [Config.new, requiredGroups, List.find?, h1]
  · intro h1 h2
    simp [Config.new, requiredGroups, List.find?, h1, h2]
  · intro h1 h2 h3
    simp [Config.new, requiredGroups, List.find?, h1, h2, h3]
  · intro h1 h2 h3
    simp [Config.new, requiredGroups, List.find?, h1, h2, h3]

theorem c7_witness :
    Config.new ⟨1, 0, 0, 0, 0⟩ [] (some ⟨["month", "day"], findCaps⟩) =
      .error (.missingCaptureGroup "year") :=
  (c7_missing_group ⟨1, 0, 0, 0, 0⟩ [] ⟨["month", "day"], findCaps⟩).1 (by decide)

/-- Claim C9: `Plan::execute` only errors from the single
writability/metadata precondition checked once before the deletion loop
(and only when a directory path is recorded on the plan); once the
precondition passes, every path in `toRemove` is attempted regardless of
other paths' failures, and the overall result is success. -/
theorem c9_execute (fs : Fs) (plan : Plan) :
    (plan.path = none →
      Plan.execute fs plan = .ok (plan.toRemove.map fun q => (q, fs.removeFile q))) ∧
    (∀ p, plan.path = some p → fs.metadataReadonly p = none →
      Plan.execute fs plan = .error (.readDirError p)) ∧
    (∀ p, plan.path = some p → fs.metadataReadonly p = some true →
      Plan.execute fs plan = .error (.pathPermissionError p)) ∧
    (∀ p, plan.path = some p → fs.metadataReadonly p = some false →
      Plan.execute fs plan = .ok (plan.toRemove.map fun q => (q, fs.removeFile q))) ∧
    (∀ err, Plan.execute fs plan = .error err →
      ∃ p, plan.path = some p ∧
        (fs.metadataReadonly p = none ∧ err = .readDirError p ∨
         fs.metadataReadonly p = some true ∧ err = .pathPermissionError p)) := by
  refine ⟨?_, ?_, ?_, ?_, ?_⟩
  · intro h
    rw [Plan.execute, h]
  · intro p hp hm
    rw [Plan.execute, hp]
    dsimp only
    rw [hm]
  · intro p hp hm
    rw [Plan.execute, hp]
    dsimp only
    rw [hm]
  · intro p hp hm
    rw [Plan.execute, hp]
    dsimp only
    rw [hm]
  · intro err h
    rw [Plan.execute] at h
    cases hp : plan.path with
    | none =>
      rw [hp] at h
      exact Except.noConfusion h
    | some p =>
      rw [hp] at h
      dsimp only at h
      cases hm : fs.metadataReadonly p with
      | none =>
        rw [hm] at h
        exact ⟨p, rfl, Or.inl ⟨hm, (Except.error.inj h).symm⟩⟩
      | some b =>
        cases b with
        | true =>
          rw [hm] at h
          exact ⟨p, rfl, Or.inr ⟨hm, (Except.error.inj h).symm⟩⟩
        | false =>
          rw [hm] at h
          exact Except.noConfusion h

theorem c9_witness :
    Plan.execute ⟨fun _ => some false, fun q => q ≠ .utf8 "locked"⟩
        ⟨[], [.utf8 "a", .utf8 "locked", .utf8 "b"], fun _ => [], some (.utf8 "dir")⟩ =
      .ok [(.utf8 "a", true), (.utf8 "locked", false), (.utf8 "b", true)] := by
  have h := (c9_execute ⟨fun _ => some false, fun q => q ≠ .utf8 "locked"⟩
    ⟨[], [.utf8 "a", .utf8 "locked", .utf8 "b"], fun _ => [], some (.utf8 "dir")⟩).2.2.2.1
    (.utf8 "dir") rfl rfl
  rw [h]
  rfl

/-! ### Claims C5 and C10 -/

/-- Claim C5: extraction silently returns nothing when the filename is
not UTF-8-decodable, when a non-empty name filter matches no pattern,
when the grammar does not match, or when a required group fails to parse
as an unsigned integer; when the grammar matches and the required groups
parse, optional hour/minute groups that are missing or unparseable
default to 0. -/
theorem c5_extraction (path : OsName) (pats : List String) (re : Re) :
    (path = .invalid → BackupEntry.new path pats re = none) ∧
    (∀ s, path = .utf8 s → pats ≠ [] → (∀ w ∈ pats, wmatch w.data s.data = false) →
      BackupEntry.new path pats re = none) ∧
    (∀ s, path = .utf8 s → re.exec s.data = none → BackupEntry.new path pats re = none) ∧
    (∀ s m, path = .utf8 s → re.exec s.data = some m →
      (m.year.bind (parseUNat 65535) = none ∨ m.month.bind (parseUNat 255) = none ∨
        m.day.bind (parseUNat 255) = none) →
      BackupEntry.new path pats re = none) ∧
    (∀ s m y mo d e, path = .utf8 s → re.exec s.data = some m →
      m.year.bind (parseUNat 65535) = some y → m.month.bind (parseUNat 255) = some mo →
      m.day.bind (parseUNat 255) = some d → BackupEntry.new path pats re = some e →
      e = ⟨y, mo, d, (m.hour.bind (parseUNat 255)).getD 0,
            (m.minute.bind (parseUNat 255)).getD 0, path⟩ ∧
      ((m.hour = none ∨ ∃ hs, m.hour = some hs ∧ parseUNat 255 hs = none) → e.hour = 0) ∧
      ((m.minute = none ∨ ∃ ms, m.minute = some ms ∧ parseUNat 255 ms = none) →
        e.minute = 0)) := by
  refine ⟨?_, ?_, ?_, ?_, ?_⟩
  · intro h
    subst h
    simp [BackupEntry.new, OsName.toStr]
  · intro s hpath hne hall
    subst hpath
    simp only [BackupEntry.new, OsName.toStr]
    have hc : (!pats.isEmpty && !(pats.any fun w => wmatch w.data s.data)) = true := by
      rw [Bool.and_eq_true]
      constructor
      · cases pats with
        | nil => exact absurd rfl hne
        | cons a l => rfl
      · rw [Bool.not_eq_true', List.any_eq_false]
        intro w hw
        simp [hall w hw]
    rw [if_pos hc]
  · intro s hpath hex
    subst hpath
    simp only [BackupEntry.new, OsName.toStr]
    split
    · rfl
    · rw [hex]
  · intro s m hpath hex hnone
    subst hpath
    simp only [BackupEntry.new, OsName.toStr]
    split
    · rfl
    · rw [hex]
      dsimp only
      rcases hnone with h | h | h <;>
        cases hy : m.year.bind (parseUNat 65535) <;>
        cases hmo : m.month.bind (parseUNat 255) <;>
        cases hd : m.day.bind (parseUNat 255) <;>
        simp_all
  · intro s m y mo d e hpath hex hy hmo hd hnew
    subst hpath
    simp only [BackupEntry.new, OsName.toStr] at hnew
    split at hnew
    · exact Option.noConfusion hnew
    · rw [hex] at hnew
      dsimp only at hnew
      rw [hy, hmo, hd] at hnew
      dsimp only at hnew
      have he := Option.some.inj hnew
      refine ⟨he.symm, ?_, ?_⟩
      · intro hcase
        rw [← he]
        rcases hcase with hh | ⟨hs, hh, hp⟩
        · simp [hh]
        · simp [hh, hp]
      · intro hcase
        rw [← he]
        rcases hcase with hh | ⟨ms, hh, hp⟩
        · simp [hh]
        · simp [hh, hp]

theorem c5_witness :
    BackupEntry.new .invalid [] defaultRe = none ∧
    BackupEntry.new (.utf8 "2020-01-01") ["*.log"] defaultRe = none ∧
    BackupEntry.new (.utf8 "nodate") [] defaultRe = none ∧
    BackupEntry.new (.utf8 "٢٠٢٠-01-01") [] defaultRe = none ∧
    (⟨2020, 1, 1, 0, 30, .utf8 "2020-01-01-٠٤-30"⟩ : BackupEntry).hour = 0 := by
  refine ⟨(c5_extraction .invalid [] defaultRe).1 rfl, ?_, ?_, ?_, ?_⟩
  · exact (c5_extraction (.utf8 "2020-01-01") ["*.log"] defaultRe).2.1 "2020-01-01" rfl
      (by decide) (by decide)
  · exact (c5_extraction (.utf8 "nodate") [] defaultRe).2.2.1 "nodate" rfl (by decide)
  · exact (c5_extraction (.utf8 "٢٠٢٠-01-01") [] defaultRe).2.2.2.1 "٢٠٢٠-01-01"
      ⟨some ['٢', '٠', '٢', '٠'], some ['0', '1'], some ['0', '1'], none, none, none⟩ rfl
      (by decide) (Or.inl (by decide))
  · exact ((c5_extraction (.utf8 "2020-01-01-٠٤-30") [] defaultRe).2.2.2.2
      "2020-01-01-٠٤-30"
      ⟨some ['2', '0', '2', '0'], some ['0', '1'], some ['0', '1'], some ['٠', '٤'],
        some ['3', '0'], none⟩
      2020 1 1 ⟨2020, 1, 1, 0, 30, .utf8 "2020-01-01-٠٤-30"⟩ rfl (by decide) (by decide)
      (by decide) (by decide) (by decide)).2.1 (Or.inr ⟨['٠', '٤'], rfl, by decide⟩)

/-- Claim C10 counterexample: the filename `٢٠٢٠-01-01` is itself a
substring matching the timestamp grammar (`\d` accepts the Arabic-Indic
digits), yet extraction with an empty filter returns nothing, because
the captured year fails to parse as an unsigned integer. -/
theorem c10_counterexample :
    (findCaps "٢٠٢٠-01-01".data).isSome = true ∧
    BackupEntry.new (.utf8 "٢٠٢٠-01-01") [] defaultRe = none := by
  decide

/-- Claim C10 (amended): grammar search is unanchored — if any start
position of the filename matches, the search succeeds and returns the
match at the first such position (arbitrary prefixes and suffixes never
prevent matching); extraction with an empty filter succeeds with exactly
that first match whenever its required groups parse as unsigned
integers. -/
theorem c10_unanchored :
    (∀ cs : List Char, (∃ i m, matchAtPos (cs.drop i) = some m) →
      ∃ m, findCaps cs = some m) ∧
    (∀ cs : List Char, ∀ m, findCaps cs = some m →
      ∃ i, matchAtPos (cs.drop i) = some m ∧ ∀ j < i, matchAtPos (cs.drop j) = none) ∧
    (∀ s m y mo d, findCaps s.data = some m →
      m.year.bind (parseUNat 65535) = some y → m.month.bind (parseUNat 255) = some mo →
      m.day.bind (parseUNat 255) = some d →
      BackupEntry.new (.utf8 s) [] defaultRe =
        some ⟨y, mo, d, (m.hour.bind (parseUNat 255)).getD 0,
              (m.minute.bind (parseUNat 255)).getD 0, .utf8 s⟩) := by
  refine ⟨?_, ?_, ?_⟩
  · intro cs
    induction cs with
    | nil =>
      rintro ⟨i, m, hm⟩
      rw [List.drop_nil] at hm
      rw [show matchAtPos [] = none from rfl] at hm
      exact Option.noConfusion hm
    | cons c cs ih =>
      rintro ⟨i, m, hm⟩
      rw [findCaps]
      cases h0 : matchAtPos (c :: cs) with
      | some m0 => exact ⟨m0, rfl⟩
      | none =>
        cases i with
        | zero =>
          rw [List.drop_zero] at hm
          rw [h0] at hm
          exact Option.noConfusion hm
        | succ j =>
          rw [List.drop_succ_cons] at hm
          exact ih ⟨j, m, hm⟩
  · intro cs
    induction cs with
    | nil =>
      intro m hm
      rw [findCaps] at hm
      exact Option.noConfusion hm
    | cons c cs ih =>
      intro m hm
      rw [findCaps] at hm
      cases h0 : matchAtPos (c :: cs) with
      | some m0 =>
        rw [h0] at hm
        refine ⟨0, ?_, ?_⟩
        · rw [List.drop_zero, h0]
          exact congrArg some (Option.some.inj hm)
        · intro j hj
          exact absurd hj (Nat.not_lt_zero j)
      | none =>
        rw [h0] at hm
        obtain ⟨i, h1, h2⟩ := ih m hm
        refine ⟨i + 1, ?_, ?_⟩
        · rw [List.drop_succ_cons]
          exact h1
        · intro j hj
          cases j with
          | zero =>
            rw [List.drop_zero]
            exact h0
          | succ j2 =>
            rw [List.drop_succ_cons]
            exact h2 j2 (Nat.lt_of_succ_lt_succ hj)
  · intro s m y mo d hfind hy hmo hd
    simp only [BackupEntry.new, OsName.toStr]
    have hc : (!(([] : List String).isEmpty) &&
        !(([] : List String).any fun w => wmatch w.data s.data)) = false := rfl
    rw [if_neg (by rw [hc]; exact Bool.false_ne_true)]
    have hex : defaultRe.exec s.data = some m := hfind
    rw [hex]
    dsimp only
    rw [hy, hmo, hd]

theorem c10_witness :
    BackupEntry.new (.utf8 "backup-2020-01-01.tar") [] defaultRe =
      some ⟨2020, 1, 1, 0, 0, .utf8 "backup-2020-01-01.tar"⟩ := by
  have h := c10_unanchored.2.2 "backup-2020-01-01.tar"
    ⟨some ['2', '0', '2', '0'], some ['0', '1'], some ['0', '1'], none, none, none⟩
    2020 1 1 (by decide) (by decide) (by decide) (by decide)
  exact h

/-! ### Claim C4 -/

/-- Claim C4: the `test_make_plan` fixture of 400 daily-named files going
backward one day from 2015-01-01: `yearly=3` keeps 3; adding `monthly=13`
keeps 14; adding `daily=30` keeps 43; and with the 30 extra `.log` files
plus a `*.log` name filter, 30 are kept. -/
theorem c4_fixture_scenarios :
    (planFrom ⟨⟨3, 0, 0, 0, 0⟩, [], defaultRe⟩ fixture400).toKeep.length = 3 ∧
    (planFrom ⟨⟨3, 13, 0, 0, 0⟩, [], defaultRe⟩ fixture400).toKeep.length = 14 ∧
    (planFrom ⟨⟨3, 13, 30, 0, 0⟩, [], defaultRe⟩ fixture400).toKeep.length = 43 ∧
    (planFrom ⟨⟨3, 13, 30, 0, 0⟩, ["*.log"], defaultRe⟩
      (fixture400 ++ fixtureLog30)).toKeep.length = 30 := by
  refine ⟨by decide, by decide, by decide, by decide⟩
